import Mathlib

/- Verification of the scheduling conflict solver (scheduling.py).
   Time instants are embedded as indices into the sorted cell list
   dt_by_index, so a slot (start, end) becomes a half-open interval
   of cell indices, and the grid dict becomes a list of strings. -/

set_option maxRecDepth 10000

namespace Scheduling

/-- A candidate time range of a subject: the half-open interval of
5-minute grid cells it spans, as indices into the sorted cell list. -/
abbrev Slot := Nat × Nat

/-- In-memory subject record: name, type string ("UE" or "VO") and
the ordered list of candidate slots, as loaded by the Subject class. -/
structure Subject where
  name : String
  stype : String
  times : List Slot
deriving DecidableEq

/-- Default subject used only as the fallback of list lookups. -/
def defSubject : Subject := { name := "", stype := "", times := [] }

/-- Schedule.is_free: every grid cell spanning the interval of the
selected slot is currently empty. -/
def is_free (table : List String) (t : Slot) : Bool :=
  (List.range' t.1 (t.2 - t.1)).all (fun i => table.getD i "" == "")

/-- Schedule.fill: write the subject name into every cell spanning
the interval of the selected slot. -/
def fill (table : List String) (su : Subject) (t : Slot) : List String :=
  (List.range' t.1 (t.2 - t.1)).foldl (fun tb i => tb.set i su.name) table

/-- Subject.mark_allocated: add the selected time to the allocated set
(the set is modelled as a duplicate-free list). -/
def mark_allocated (al : List Slot) (t : Slot) : List Slot :=
  if t ∈ al then al else al ++ [t]

/-- Subject.is_partially_complete: at least one allocated time. -/
def is_at_least_started (al : List Slot) : Bool :=
  decide (1 ≤ al.length)

/-- Subject.is_complete: for VO subjects the allocated set equals the
set of all times, otherwise at least one allocated time. -/
def is_complete (su : Subject) (al : List Slot) : Bool :=
  if su.stype = "VO" then decide (al.toFinset = su.times.toFinset)
  else decide (1 ≤ al.length)

/-- itertools.product([True, False], repeat = n): all n-tuples of
booleans, True listed first, rightmost position varying fastest. -/
def boolTuples : Nat → List (List Bool)
  | 0 => [[]]
  | n + 1 =>
      ((boolTuples n).map (fun l => true :: l)) ++
      ((boolTuples n).map (fun l => false :: l))

/-- sum(booltup) for a boolean tuple: the number of set bits. -/
def countTrue (l : List Bool) : Nat := (l.filter id).length

/-- Allocation: enumerator state over the list of admissible priority
bit vectors for one subject. -/
structure Allocation where
  index : Nat
  has_reached_end : Bool
  array : List (List Bool)
deriving DecidableEq

/-- Allocation constructor: VO subjects get every tuple with at least
one set bit, all other subjects the tuples with exactly one set bit. -/
def Allocation.init (su : Subject) : Allocation :=
  { index := 0
    has_reached_end := false
    array :=
      if su.stype = "VO" then
        (boolTuples su.times.length).filter (fun l => l.any id)
      else
        (boolTuples su.times.length).filter (fun l => countTrue l == 1) }

/-- Allocation.get_array / enables_timeslot: the bit vector at the
current index. -/
def Allocation.get_array (a : Allocation) : List Bool :=
  a.array.getD a.index []

/-- Allocation.advance: step the index forward, or signal the end of
the range when the index is already at the last position. -/
def Allocation.advance (a : Allocation) : Allocation :=
  if a.index < a.array.length - 1 then { a with index := a.index + 1 }
  else { a with has_reached_end := true }

/-- Allocation.reverse: step the index backward unless it is zero. -/
def Allocation.reverse (a : Allocation) : Allocation :=
  if 0 < a.index then { a with index := a.index - 1 } else a

/-- Allocation.reset_end_status: clear the end-of-range signal. -/
def Allocation.reset_end_status (a : Allocation) : Allocation :=
  { a with has_reached_end := false }

/-- The Schedule value built by create_schedule: the filled grid and
the two classification flags, plus the version slot assigned later. -/
structure Schedule where
  table : List String
  is_incomplete : Bool
  failed : Bool
  version : Nat
deriving DecidableEq

/-- One phase-1 attempt: if the slot bit is set and all spanned cells
are empty, fill them and record the slot; otherwise skip silently. -/
def phase1Subject (su : Subject) (mask : List Bool)
    (st : List String × List Slot) : List String × List Slot :=
  (List.range su.times.length).foldl
    (fun st i =>
      if mask.getD i false then
        let t := su.times.getD i (0, 0)
        if is_free st.1 t then (fill st.1 su t, mark_allocated st.2 t)
        else st
      else st)
    st

/-- Phase 1 of create_schedule: for every subject in order, attempt
every slot whose bit is set in the current bit vector. -/
def phase1 (subjects : List Subject) (arrs : List Allocation)
    (tb : List String) (allocs : List (List Slot)) :
    List String × List (List Slot) :=
  (List.range subjects.length).foldl
    (fun st si =>
      let su := subjects.getD si defSubject
      let mask := (arrs.getD si (Allocation.init defSubject)).get_array
      let r := phase1Subject su mask (st.1, st.2.getD si [])
      (r.1, st.2.set si r.2))
    (tb, allocs)

/-- One phase-2 attempt for a VO subject: allocate each slot that is
not yet allocated and whose cells are still all empty. -/
def phase2Subject (su : Subject)
    (st : List String × List Slot) : List String × List Slot :=
  su.times.foldl
    (fun st t =>
      if t ∈ st.2 then st
      else if is_free st.1 t then (fill st.1 su t, mark_allocated st.2 t)
      else st)
    st

/-- Phase 2 of create_schedule: only subjects of type VO retry their
remaining slots. -/
def phase2 (subjects : List Subject)
    (tb : List String) (allocs : List (List Slot)) :
    List String × List (List Slot) :=
  (List.range subjects.length).foldl
    (fun st si =>
      let su := subjects.getD si defSubject
      if su.stype = "VO" then
        let r := phase2Subject su (st.1, st.2.getD si [])
        (r.1, st.2.set si r.2)
      else st)
    (tb, allocs)

/-- One step of the classification loop of create_schedule: a subject
with no allocation sets failed, a started but not complete subject
sets is_incomplete. -/
def classifyStep (subjects : List Subject) (allocs : List (List Slot))
    (fi : Bool × Bool) (si : Nat) : Bool × Bool :=
  let su := subjects.getD si defSubject
  let al := allocs.getD si []
  if ¬ is_at_least_started al then (true, fi.2)
  else if ¬ is_complete su al then (fi.1, true)
  else fi

/-- The classification loop of create_schedule over all subjects. -/
def classify (subjects : List Subject) (allocs : List (List Slot)) :
    Bool × Bool :=
  (List.range subjects.length).foldl (classifyStep subjects allocs)
    (false, false)

/-- Schedule.create_schedule: run both phases from a copy of the blank
grid, classify, then reset every subject bookkeeping set. Returns the
Schedule value together with the reset per-subject allocation state. -/
def create_schedule (subjects : List Subject) (arrs : List Allocation)
    (blank : List String) (allocs : List (List Slot)) :
    Schedule × List (List Slot) :=
  let p1 := phase1 subjects arrs blank allocs
  let p2 := phase2 subjects p1.1 p1.2
  let fi := classify subjects p2.2
  ({ table := p2.1, is_incomplete := fi.2, failed := fi.1, version := 0 },
   List.replicate subjects.length [])

/-- State of the search: the per-subject enumerators, the per-subject
allocated-time scratch, the memo of visited signatures, the accepted
schedules and the duplicate counter. -/
structure PercState where
  arrs : List Allocation
  allocs : List (List Slot)
  visited : List (List (List Bool))
  saved : List Schedule
  duplicates : Nat
deriving DecidableEq

/-- The first loop of percolate: find the first enumerator whose
end-of-range signal is set, clear it, and report that one was found. -/
def clearFirstFlag : List Allocation → Option (List Allocation)
  | [] => none
  | a :: rest =>
      if a.has_reached_end then some (a.reset_end_status :: rest)
      else (clearFirstFlag rest).map (fun r => a :: r)

/-- Replace the element at one position of a list. -/
def modifyIdx (f : α → α) : Nat → List α → List α
  | _, [] => []
  | 0, a :: l => f a :: l
  | n + 1, a :: l => a :: modifyIdx f n l

/-- The acceptance branch of percolate: drop failed schedules, count
and drop structural duplicates, otherwise append with the version
computed from the position found by list search. -/
def sinkStep (sched : Schedule) (st : PercState) : PercState :=
  if sched.failed then st
  else if st.saved.any (fun e => decide (e.table = sched.table)) then
    { st with duplicates := st.duplicates + 1 }
  else
    let appended := st.saved ++ [sched]
    let idx := appended.findIdx (fun e => decide (e.table = sched.table))
    { st with saved := st.saved ++ [{ sched with version := idx + 1 }] }

/-- The signature of the current search state: the tuple of current
bit vectors across all subjects, in fixed order. -/
def sigOf (arrs : List Allocation) : List (List Bool) :=
  arrs.map Allocation.get_array

/-- The axis loop of percolate: for each subject position, advance its
enumerator, recurse through the given step, then move it back. -/
def axisSteps (step : PercState → Option PercState) :
    List Nat → PercState → Option PercState
  | [], st => some st
  | j :: rest, st =>
    match step { st with arrs := modifyIdx Allocation.advance j st.arrs } with
    | none => none
    | some st2 =>
        axisSteps step rest
          { st2 with arrs := modifyIdx Allocation.reverse j st2.arrs }

/-- percolate: clear a pending end-of-range signal, or return when the
signature was already visited, or memoize the signature, build and
submit the schedule, and walk every neighbor one axis at a time. The
fuel argument bounds the recursion nesting depth; none means the fuel
ran out before the walk returned. -/
def percolate (subjects : List Subject) (blank : List String) :
    Nat → PercState → Option PercState
  | 0, _ => none
  | fuel + 1, st =>
    match clearFirstFlag st.arrs with
    | some arrs2 => some { st with arrs := arrs2 }
    | none =>
      if sigOf st.arrs ∈ st.visited then some st
      else
        let st1 := { st with visited := sigOf st.arrs :: st.visited }
        let r := create_schedule subjects st.arrs blank st1.allocs
        let st2 := sinkStep r.1 { st1 with allocs := r.2 }
        axisSteps (percolate subjects blank fuel)
          (List.range st2.arrs.length) st2

/-- The initial global state: fresh enumerators, empty bookkeeping,
empty memo, no saved schedules, zero duplicates. -/
def initState (subjects : List Subject) : PercState :=
  { arrs := subjects.map Allocation.init
    allocs := List.replicate subjects.length []
    visited := []
    saved := []
    duplicates := 0 }

/-- Spec wording of one allocation attempt: the cells of the slot are
written with the subject name only if all of them are empty, and on
conflict the slot is silently skipped. -/
def attemptSpec (su : Subject) (st : List String × List Slot) (t : Slot) :
    List String × List Slot :=
  if ∀ i < t.2, t.1 ≤ i → st.1.getD i "" = "" then
    (fill st.1 su t, mark_allocated st.2 t)
  else st

/-- Spec wording of phase 1 for one subject: each of its slots in
definition order with its bit set is attempted. -/
def phase1SubjectSpec (su : Subject) (mask : List Bool)
    (st : List String × List Slot) : List String × List Slot :=
  ((List.range su.times.length).filter (fun i => mask.getD i false)).foldl
    (fun st i => attemptSpec su st (su.times.getD i (0, 0))) st

/-- Spec wording of phase 1: for each subject in fixed order, attempt
the slots whose bit is set. -/
def phase1Spec (subjects : List Subject) (arrs : List Allocation)
    (tb : List String) (allocs : List (List Slot)) :
    List String × List (List Slot) :=
  (List.range subjects.length).foldl
    (fun st si =>
      let su := subjects.getD si defSubject
      let mask := (arrs.getD si (Allocation.init defSubject)).get_array
      let r := phase1SubjectSpec su mask (st.1, st.2.getD si [])
      (r.1, st.2.set si r.2))
    (tb, allocs)

/-- Spec wording of phase 2 for one subject: every not yet allocated
slot whose cells are all still empty is allocated, regardless of its
bit. -/
def phase2SubjectSpec (su : Subject)
    (st : List String × List Slot) : List String × List Slot :=
  su.times.foldl
    (fun st t =>
      if t ∉ st.2 ∧ ∀ i < t.2, t.1 ≤ i → st.1.getD i "" = "" then
        (fill st.1 su t, mark_allocated st.2 t)
      else st)
    st

/-- Spec wording of phase 2: only the subjects of kind AllBestEffort
(type VO) are considered; the others are never revisited. -/
def phase2Spec (subjects : List Subject)
    (tb : List String) (allocs : List (List Slot)) :
    List String × List (List Slot) :=
  ((List.range subjects.length).filter
      (fun si => (subjects.getD si defSubject).stype = "VO")).foldl
    (fun st si =>
      let su := subjects.getD si defSubject
      let r := phase2SubjectSpec su (st.1, st.2.getD si [])
      (r.1, st.2.set si r.2))
    (tb, allocs)

/-- The builder as the claim phrases it: spec phase 1, then spec
phase 2 restricted to AllBestEffort subjects, then classification. -/
def create_scheduleSpec (subjects : List Subject) (arrs : List Allocation)
    (blank : List String) (allocs : List (List Slot)) :
    Schedule × List (List Slot) :=
  let p1 := phase1Spec subjects arrs blank allocs
  let p2 := phase2Spec subjects p1.1 p1.2
  let fi := classify subjects p2.2
  ({ table := p2.1, is_incomplete := fi.2, failed := fi.1, version := 0 },
   List.replicate subjects.length [])

/-- The per-subject allocation state after both phases, before the
classification loop resets it. -/
def allocsAfter (subjects : List Subject) (arrs : List Allocation)
    (blank : List String) (allocs : List (List Slot)) :
    List (List Slot) :=
  let p1 := phase1 subjects arrs blank allocs
  (phase2 subjects p1.1 p1.2).2

/-- An externally requested enumerator operation. -/
inductive AllocOp
  | step_forward
  | step_back
deriving DecidableEq

/-- Apply one enumerator operation. -/
def applyOp (a : Allocation) : AllocOp → Allocation
  | .step_forward => a.advance
  | .step_back => a.reverse

/-- Apply a sequence of enumerator operations in order. -/
def applyOps (ops : List AllocOp) (a : Allocation) : Allocation :=
  ops.foldl applyOp a

/-- All ways of picking one element from each list, in order. -/
def listProd : List (List α) → List (List α)
  | [] => [[]]
  | l :: ls => l.flatMap (fun a => (listProd ls).map (fun r => a :: r))

/-- The number of signatures over the given arrays that are not in the
given memo. -/
def unvisitedOf (arrs : List Allocation)
    (visited : List (List (List Bool))) : Nat :=
  (listProd (arrs.map Allocation.array)).countP
    (fun sg => decide (sg ∉ visited))

/-- The number of signatures of the current enumerator arrays that are
not yet in the memo. -/
def unvisited (st : PercState) : Nat :=
  unvisitedOf st.arrs st.visited

/-- Well-formedness of a search state: every enumerator has a nonempty
array and an in-bounds index. -/
def StInv (st : PercState) : Prop :=
  ∀ a ∈ st.arrs, a.array ≠ [] ∧ a.index < a.array.length

/-- First subject of the concrete search input: four distinct slots. -/
def cA : Subject := { name := "A", stype := "UE", times := [(0,1),(1,2),(2,3),(3,4)] }

/-- Second subject of the concrete search input: three slots. -/
def cB : Subject := { name := "B", stype := "UE", times := [(0,1),(0,1),(0,1)] }

/-- Third subject of the concrete search input: three slots. -/
def cC : Subject := { name := "C", stype := "UE", times := [(0,1),(0,1),(0,1)] }

/-- Concrete subject list with per-subject choice counts 4, 3 and 3. -/
def cSubjects : List Subject := [cA, cB, cC]

/-- Concrete blank grid with four cells. -/
def cBlank : List String := List.replicate 4 ""

/-- The full search run on the concrete input, with ample fuel. -/
def cResult : Option PercState :=
  percolate cSubjects cBlank 100 (initState cSubjects)

/-- Concrete builder input, first subject: one slot over two cells. -/
def dA : Subject := { name := "A", stype := "UE", times := [(0,2)] }

/-- Concrete builder input, second subject: the same slot, so that it
conflicts with the first subject and gets zero allocations. -/
def dB : Subject := { name := "B", stype := "UE", times := [(0,2)] }

/-- Concrete builder input, third subject: a VO subject that gets one
of its two slots, hence started but not complete. -/
def dC : Subject := { name := "C", stype := "VO", times := [(2,3),(0,1)] }

/-- Enumerators for the concrete builder input, all at index zero. -/
def dArrs : List Allocation := [Allocation.init dA, Allocation.init dB, Allocation.init dC]

/-- The concrete builder run on a blank grid of three cells. -/
def dRes : Schedule × List (List Slot) :=
  create_schedule [dA, dB, dC] dArrs (List.replicate 3 "") (List.replicate 3 [])

lemma boolTuples_length (n : Nat) : (boolTuples n).length = 2 ^ n := by
  induction n with
  | zero => rfl
  | succ n ih => simp [boolTuples, ih, Nat.pow_succ]; ring

lemma mem_boolTuples_length {n : Nat} {l : List Bool} (h : l ∈ boolTuples n) :
    l.length = n := by
  induction n generalizing l with
  | zero => simp [boolTuples] at h; simp [h]
  | succ n ih =>
    simp only [boolTuples, List.mem_append, List.mem_map] at h
    rcases h with ⟨a, ha, rfl⟩ | ⟨a, ha, rfl⟩ <;> simp [ih ha]

lemma countTrue_cons_true (l : List Bool) :
    countTrue (true :: l) = 1 + countTrue l := by
  simp [countTrue, List.filter_cons, Nat.add_comm]

lemma countTrue_cons_false (l : List Bool) :
    countTrue (false :: l) = countTrue l := by
  simp [countTrue, List.filter_cons]

lemma one_add_beq_zero (m : Nat) : (1 + m == 0) = false := by
  rw [Nat.one_add]
  rfl

lemma one_add_beq_one (m : Nat) : (1 + m == 1) = (m == 0) := by
  cases m with
  | zero => rfl
  | succ k => simp [Nat.one_add]

lemma filter_map_cons_eq (b : Bool) (L : List (List Bool)) (p : List Bool → Bool) :
    (L.map (fun l => b :: l)).filter p =
    (L.filter (fun l => p (b :: l))).map (fun l => b :: l) := by
  induction L with
  | nil => rfl
  | cons a L ih =>
    simp only [List.map_cons, List.filter_cons]
    cases h : p (b :: a) <;> simp [h, ih]

lemma countZero_filter_length (n : Nat) :
    ((boolTuples n).filter (fun l => countTrue l == 0)).length = 1 := by
  induction n with
  | zero => rfl
  | succ n ih =>
    simp only [boolTuples, List.filter_append, filter_map_cons_eq,
      countTrue_cons_true, countTrue_cons_false, one_add_beq_zero,
      List.length_append, List.length_map, List.filter_false]
    simpa using ih

lemma countOne_filter_length (n : Nat) :
    ((boolTuples n).filter (fun l => countTrue l == 1)).length = n := by
  induction n with
  | zero => rfl
  | succ n ih =>
    simp only [boolTuples, List.filter_append, filter_map_cons_eq,
      countTrue_cons_true, countTrue_cons_false, one_add_beq_one,
      List.length_append, List.length_map]
    rw [countZero_filter_length, ih]
    omega

lemma any_filter_length (n : Nat) :
    ((boolTuples n).filter (fun l => l.any id)).length + 1 = 2 ^ n := by
  induction n with
  | zero => rfl
  | succ n ih =>
    simp only [boolTuples, List.filter_append, filter_map_cons_eq,
      List.any_cons, id, Bool.true_or, Bool.false_or,
      List.length_append, List.length_map, List.filter_true]
    have hlen := boolTuples_length n
    have hpow : 2 ^ (n + 1) = 2 ^ n + 2 ^ n := by rw [Nat.pow_succ]; omega
    omega

lemma boolTuples_nodup (n : Nat) : (boolTuples n).Nodup := by
  induction n with
  | zero => simp [boolTuples]
  | succ n ih =>
    simp only [boolTuples]
    refine List.Nodup.append (ih.map List.cons_injective)
      (ih.map List.cons_injective) ?_
    intro x hx hy
    simp only [List.mem_map] at hx hy
    rcases hx with ⟨a, _, rfl⟩
    rcases hy with ⟨b, _, hb⟩
    simp at hb

lemma init_array_length (su : Subject) :
    (Allocation.init su).array.length =
      if su.stype = "VO" then 2 ^ su.times.length - 1 else su.times.length := by
  simp only [Allocation.init]
  split
  · have := any_filter_length su.times.length
    omega
  · exact countOne_filter_length su.times.length

lemma init_array_ne_nil (su : Subject) (h : su.times ≠ []) :
    (Allocation.init su).array ≠ [] := by
  have hn : 1 ≤ su.times.length := List.length_pos.mpr h
  rw [← List.length_pos, init_array_length]
  split
  · have h2 : 2 ^ 1 ≤ 2 ^ su.times.length := Nat.pow_le_pow_right (by omega) hn
    omega
  · omega

lemma applyOp_array (a : Allocation) (op : AllocOp) :
    (applyOp a op).array = a.array := by
  cases op <;>
    simp only [applyOp, Allocation.advance, Allocation.reverse] <;>
    split <;> rfl

lemma applyOp_index_lt {a : Allocation} (h : a.index < a.array.length)
    (op : AllocOp) :
    (applyOp a op).index < (applyOp a op).array.length := by
  rw [applyOp_array]
  cases op with
  | step_forward =>
    simp only [applyOp, Allocation.advance]
    split
    · dsimp only
      omega
    · exact h
  | step_back =>
    simp only [applyOp, Allocation.reverse]
    split
    · dsimp only
      omega
    · exact h

lemma applyOps_index_lt (ops : List AllocOp) (a : Allocation)
    (h : a.index < a.array.length) :
    (applyOps ops a).index < (applyOps ops a).array.length := by
  induction ops generalizing a with
  | nil => exact h
  | cons op rest ih => exact ih _ (applyOp_index_lt h op)

/-- The safety properties of one enumerator state: in-bounds index, an
in-range current-choice read, saturating advance and saturating reverse. -/
def enumeratorSafe (a : Allocation) : Prop :=
  a.index < a.array.length ∧
  a.get_array ∈ a.array ∧
  (a.index = a.array.length - 1 →
    a.advance.index = a.index ∧ a.advance.has_reached_end = true) ∧
  (a.index = 0 → a.reverse.index = 0)

/-- C4: for every subject with n at least 1 slots, the enumerator array holds
exactly 2 ^ n - 1 choices for kind VO, each with at least one set bit, and
exactly n choices for kind UE, each with exactly one set bit; every choice is
a bit vector of length n and the array has no duplicates. -/
theorem C4_enumerator_counts (su : Subject) (h : 1 ≤ su.times.length) :
    (su.stype = "VO" →
      (Allocation.init su).array.length = 2 ^ su.times.length - 1 ∧
      ∀ l ∈ (Allocation.init su).array, l.any id = true) ∧
    (su.stype = "UE" →
      (Allocation.init su).array.length = su.times.length ∧
      ∀ l ∈ (Allocation.init su).array, countTrue l = 1) ∧
    (∀ l ∈ (Allocation.init su).array, l.length = su.times.length) ∧
    (Allocation.init su).array.Nodup := by
  refine ⟨fun hv => ⟨?_, ?_⟩, fun hu => ⟨?_, ?_⟩, ?_, ?_⟩
  · rw [init_array_length, if_pos hv]
  · intro l hl
    simp only [Allocation.init, if_pos hv] at hl
    simpa using List.of_mem_filter hl
  · have hne : ¬ su.stype = "VO" := by rw [hu]; decide
    rw [init_array_length, if_neg hne]
  · intro l hl
    have hne : ¬ su.stype = "VO" := by rw [hu]; decide
    simp only [Allocation.init, if_neg hne] at hl
    have := List.of_mem_filter hl
    simpa using this
  · intro l hl
    refine mem_boolTuples_length (l := l) ?_
    simp only [Allocation.init] at hl
    split at hl <;> exact List.mem_of_mem_filter hl
  · simp only [Allocation.init]
    split <;> exact (boolTuples_nodup _).filter _

/-- Witness for C4 at a concrete VO subject with two slots. -/
theorem C4_enumerator_counts_witness :
    1 ≤ dC.times.length ∧
    ((dC.stype = "VO" →
      (Allocation.init dC).array.length = 2 ^ dC.times.length - 1 ∧
      ∀ l ∈ (Allocation.init dC).array, l.any id = true) ∧
    (dC.stype = "UE" →
      (Allocation.init dC).array.length = dC.times.length ∧
      ∀ l ∈ (Allocation.init dC).array, countTrue l = 1) ∧
    (∀ l ∈ (Allocation.init dC).array, l.length = dC.times.length) ∧
    (Allocation.init dC).array.Nodup) :=
  ⟨by decide, C4_enumerator_counts dC (by decide)⟩

/-- C10: starting from a fresh enumerator of a subject with at least one
slot, any sequence of advance and reverse calls keeps the index inside the
array bounds: advance at the last index leaves the index unchanged and sets
the end flag, reverse at index zero leaves the index at zero, and the
current-choice read never goes out of bounds. -/
theorem C10_enumerator_index_safe (su : Subject) (h : su.times ≠ [])
    (ops : List AllocOp) :
    enumeratorSafe (applyOps ops (Allocation.init su)) := by
  have h0 : (Allocation.init su).index < (Allocation.init su).array.length := by
    have := init_array_ne_nil su h
    simp only [Allocation.init] at this ⊢
    exact List.length_pos.mpr this
  have hb := applyOps_index_lt ops _ h0
  refine ⟨hb, ?_, fun hlast => ⟨?_, ?_⟩, fun hz => ?_⟩
  · rw [Allocation.get_array, List.getD_eq_getElem _ _ hb]
    exact List.getElem_mem hb
  · simp only [Allocation.advance, hlast]
    rw [if_neg (by omega)]
  · simp only [Allocation.advance, hlast]
    rw [if_neg (by omega)]
  · simp [Allocation.reverse, hz]

/-- Witness for C10 at a concrete subject and a concrete call sequence. -/
theorem C10_enumerator_index_safe_witness :
    cA.times ≠ [] ∧
    enumeratorSafe (applyOps [AllocOp.step_forward, AllocOp.step_forward,
      AllocOp.step_back] (Allocation.init cA)) :=
  ⟨by decide, C10_enumerator_index_safe cA (by decide) _⟩

lemma create_schedule_snd (subjects : List Subject) (arrs : List Allocation)
    (blank : List String) (allocs : List (List Slot)) :
    (create_schedule subjects arrs blank allocs).2 =
      List.replicate subjects.length [] := rfl

/-- C7: the builder is a deterministic function of the subject list, the
bit vectors and the blank grid: a build performed after any earlier build
on the same subject records returns exactly the same value as a build from
the pristine bookkeeping state, because every build resets the per-subject
bookkeeping before returning. -/
theorem C7_builder_deterministic (subjects : List Subject)
    (arrs arrs0 : List Allocation) (blank blank0 : List String)
    (al0 : List (List Slot)) :
    create_schedule subjects arrs blank
        ((create_schedule subjects arrs0 blank0 al0).2) =
      create_schedule subjects arrs blank
        (List.replicate subjects.length []) ∧
    create_schedule subjects arrs blank
        ((create_schedule subjects arrs blank
          (List.replicate subjects.length [])).2) =
      create_schedule subjects arrs blank
        (List.replicate subjects.length []) :=
  ⟨rfl, rfl⟩

/-- C9 amended: the builder returns only the grid and the flags; the
per-subject allocated-slot bookkeeping is reset to empty on return rather
than being part of the returned Schedule value. -/
theorem C9_builder_resets_bookkeeping (subjects : List Subject)
    (arrs : List Allocation) (blank : List String)
    (allocs : List (List Slot)) :
    (create_schedule subjects arrs blank allocs).2 =
      List.replicate subjects.length [] :=
  create_schedule_snd subjects arrs blank allocs

/-- C9 counterexample: in the concrete build the first subject does get its
slot placed, its name is on the returned grid, yet the allocation
bookkeeping handed back with the Schedule is empty for every subject, so
the set of actually placed slots is not part of the returned value. -/
theorem C9_alloc_sets_not_returned :
    dRes.1.table.getD 0 "" = "A" ∧ dRes.2 = [[], [], []] := by
  constructor <;> rfl

/-- C3 counterexample: in the concrete build the second subject gets zero
slots, so failed is true, while the VO subject got one of its two slots, so
is_incomplete is also true; the claim asserts that a failed schedule never
has is_incomplete set. -/
theorem C3_failed_and_incomplete_both_true :
    dRes.1.failed = true ∧ dRes.1.is_incomplete = true := by
  constructor <;> rfl

lemma getD_set_eq (l : List α) (i : Nat) (v d : α) (h : i < l.length) :
    (l.set i v).getD i d = v := by
  induction l generalizing i with
  | nil => simp at h
  | cons a l ih =>
    cases i with
    | zero => rfl
    | succ j => exact ih j (by simpa using h)

lemma getD_set_ne (l : List α) : ∀ (i j : Nat) (v d : α), i ≠ j →
    (l.set i v).getD j d = l.getD j d := by
  induction l with
  | nil => intro i j v d _; rfl
  | cons a l ih =>
    intro i j v d h
    cases i with
    | zero =>
      cases j with
      | zero => exact absurd rfl h
      | succ _ => rfl
    | succ i2 =>
      cases j with
      | zero => rfl
      | succ j2 => exact ih i2 j2 v d (by omega)

lemma mark_allocated_sub {al : List Slot} {T : List Slot} {t : Slot}
    (hal : ∀ x ∈ al, x ∈ T) (ht : t ∈ T) :
    ∀ x ∈ mark_allocated al t, x ∈ T := by
  intro x hx
  unfold mark_allocated at hx
  split at hx
  · exact hal x hx
  · rcases List.mem_append.mp hx with h1 | h1
    · exact hal x h1
    · have hxt : x = t := by simpa using h1
      rw [hxt]
      exact ht

lemma phase1Subject_sub_aux (su : Subject) (mask : List Bool) :
    ∀ (l : List Nat) (st : List String × List Slot),
    (∀ i ∈ l, i < su.times.length) →
    (∀ x ∈ st.2, x ∈ su.times) →
    ∀ x ∈ (l.foldl
      (fun st i =>
        if mask.getD i false then
          let t := su.times.getD i (0, 0)
          if is_free st.1 t then (fill st.1 su t, mark_allocated st.2 t)
          else st
        else st) st).2, x ∈ su.times := by
  intro l
  induction l with
  | nil => intro st _ hal; exact hal
  | cons i rest ih =>
    intro st hr hal
    simp only [List.foldl_cons]
    refine ih _ (fun j hj => hr j (List.mem_cons_of_mem i hj)) ?_
    dsimp only
    split
    · split
      · refine mark_allocated_sub hal ?_
        have hi : i < su.times.length := hr i (List.mem_cons_self i rest)
        rw [List.getD_eq_getElem _ _ hi]
        exact List.getElem_mem hi
      · exact hal
    · exact hal

lemma phase1Subject_sub (su : Subject) (mask : List Bool)
    (st : List String × List Slot) (hal : ∀ x ∈ st.2, x ∈ su.times) :
    ∀ x ∈ (phase1Subject su mask st).2, x ∈ su.times := by
  unfold phase1Subject
  exact phase1Subject_sub_aux su mask (List.range su.times.length) st
    (fun i hi => List.mem_range.mp hi) hal

lemma phase2Subject_sub_aux (su : Subject) :
    ∀ (L : List Slot) (st : List String × List Slot),
    (∀ t ∈ L, t ∈ su.times) →
    (∀ x ∈ st.2, x ∈ su.times) →
    ∀ x ∈ (L.foldl
      (fun st t =>
        if t ∈ st.2 then st
        else if is_free st.1 t then (fill st.1 su t, mark_allocated st.2 t)
        else st) st).2, x ∈ su.times := by
  intro L
  induction L with
  | nil => intro st _ hal; exact hal
  | cons t rest ih =>
    intro st hmem hal
    simp only [List.foldl_cons]
    refine ih _ (fun x hx => hmem x (List.mem_cons_of_mem t hx)) ?_
    dsimp only
    split
    · exact hal
    · split
      · exact mark_allocated_sub hal (hmem t (List.mem_cons_self t rest))
      · exact hal

lemma phase2Subject_sub (su : Subject)
    (st : List String × List Slot) (hal : ∀ x ∈ st.2, x ∈ su.times) :
    ∀ x ∈ (phase2Subject su st).2, x ∈ su.times := by
  unfold phase2Subject
  exact phase2Subject_sub_aux su su.times st (fun t ht => ht) hal

/-- The per-position subset invariant of the allocation bookkeeping. -/
def allocsSub (subjects : List Subject) (allocs : List (List Slot)) : Prop :=
  ∀ si, ∀ x ∈ allocs.getD si [], x ∈ (subjects.getD si defSubject).times

lemma allocsSub_set {subjects : List Subject} {allocs : List (List Slot)}
    (h : allocsSub subjects allocs) {si : Nat} {al : List Slot}
    (hal : ∀ x ∈ al, x ∈ (subjects.getD si defSubject).times) :
    allocsSub subjects (allocs.set si al) := by
  intro sj x hx
  by_cases hij : si = sj
  · subst hij
    by_cases hlen : si < allocs.length
    · rw [getD_set_eq allocs si al [] hlen] at hx
      exact hal x hx
    · rw [List.set_eq_of_length_le (by omega)] at hx
      exact h si x hx
  · rw [getD_set_ne allocs si sj al [] hij] at hx
    exact h sj x hx

lemma phase1_sub_aux (subjects : List Subject) (arrs : List Allocation) :
    ∀ (l : List Nat) (st : List String × List (List Slot)),
    allocsSub subjects st.2 →
    allocsSub subjects ((l.foldl
      (fun st si =>
        let su := subjects.getD si defSubject
        let mask := (arrs.getD si (Allocation.init defSubject)).get_array
        let r := phase1Subject su mask (st.1, st.2.getD si [])
        (r.1, st.2.set si r.2)) st).2) := by
  intro l
  induction l with
  | nil => intro st h; exact h
  | cons si rest ih =>
    intro st h
    simp only [List.foldl_cons]
    refine ih _ ?_
    exact allocsSub_set h (phase1Subject_sub _ _ _ (h si))

lemma phase1_sub (subjects : List Subject) (arrs : List Allocation)
    (tb : List String) (allocs : List (List Slot))
    (h : allocsSub subjects allocs) :
    allocsSub subjects (phase1 subjects arrs tb allocs).2 := by
  unfold phase1
  exact phase1_sub_aux subjects arrs (List.range subjects.length) (tb, allocs) h

lemma phase2_sub_aux (subjects : List Subject) :
    ∀ (l : List Nat) (st : List String × List (List Slot)),
    allocsSub subjects st.2 →
    allocsSub subjects ((l.foldl
      (fun st si =>
        let su := subjects.getD si defSubject
        if su.stype = "VO" then
          let r := phase2Subject su (st.1, st.2.getD si [])
          (r.1, st.2.set si r.2)
        else st) st).2) := by
  intro l
  induction l with
  | nil => intro st h; exact h
  | cons si rest ih =>
    intro st h
    simp only [List.foldl_cons]
    refine ih _ ?_
    dsimp only
    split
    · exact allocsSub_set h (phase2Subject_sub _ _ (h si))
    · exact h

lemma phase2_sub (subjects : List Subject)
    (tb : List String) (allocs : List (List Slot))
    (h : allocsSub subjects allocs) :
    allocsSub subjects (phase2 subjects tb allocs).2 := by
  unfold phase2
  exact phase2_sub_aux subjects (List.range subjects.length) (tb, allocs) h

lemma allocsAfter_sub (subjects : List Subject) (arrs : List Allocation)
    (blank : List String) :
    allocsSub subjects
      (allocsAfter subjects arrs blank (List.replicate subjects.length [])) := by
  unfold allocsAfter
  refine phase2_sub _ _ _ (phase1_sub _ _ _ _ ?_)
  intro si x hx
  rcases Nat.lt_or_ge si subjects.length with hlt | hge
  · rw [List.getD_eq_getElem _ _ (by simpa using hlt)] at hx
    simp at hx
  · rw [List.getD_eq_default _ _ (by simpa using hge)] at hx
    simp at hx

lemma classifyStep_eq (subjects : List Subject) (allocs : List (List Slot))
    (fi : Bool × Bool) (si : Nat) :
    classifyStep subjects allocs fi si =
      (fi.1 || !(is_at_least_started (allocs.getD si [])),
       fi.2 || (is_at_least_started (allocs.getD si []) &&
         !(is_complete (subjects.getD si defSubject) (allocs.getD si [])))) := by
  show (if ¬ is_at_least_started (allocs.getD si []) then (true, fi.2)
    else if ¬ is_complete (subjects.getD si defSubject) (allocs.getD si [])
    then (fi.1, true) else fi) = _
  cases hs : is_at_least_started (allocs.getD si []) <;>
    cases hc : is_complete (subjects.getD si defSubject) (allocs.getD si []) <;>
    simp

lemma foldl_classifyStep (subjects : List Subject) (allocs : List (List Slot))
    (l : List Nat) (f i : Bool) :
    l.foldl (classifyStep subjects allocs) (f, i) =
      (f || l.any (fun si => !(is_at_least_started (allocs.getD si []))),
       i || l.any (fun si => is_at_least_started (allocs.getD si []) &&
         !(is_complete (subjects.getD si defSubject) (allocs.getD si [])))) := by
  induction l generalizing f i with
  | nil => simp
  | cons a l ih =>
    simp only [List.foldl_cons, classifyStep_eq, List.any_cons, ih,
      Bool.or_assoc]

lemma classify_eq (subjects : List Subject) (allocs : List (List Slot)) :
    classify subjects allocs =
      ((List.range subjects.length).any
          (fun si => !(is_at_least_started (allocs.getD si []))),
       (List.range subjects.length).any
          (fun si => is_at_least_started (allocs.getD si []) &&
            !(is_complete (subjects.getD si defSubject) (allocs.getD si [])))) := by
  unfold classify
  simpa using foldl_classifyStep subjects allocs (List.range subjects.length)
    false false

lemma started_iff (al : List Slot) :
    is_at_least_started al = true ↔ al ≠ [] := by
  unfold is_at_least_started
  rcases al with _ | ⟨a, al⟩ <;> simp

lemma vo_not_complete_iff {su : Subject} {al : List Slot}
    (hsub : ∀ x ∈ al, x ∈ su.times) (hvo : su.stype = "VO") :
    is_complete su al = false ↔ ∃ t ∈ su.times, t ∉ al := by
  unfold is_complete
  rw [if_pos hvo]
  simp only [decide_eq_false_iff_not]
  constructor
  · intro hne
    by_contra hc
    push_neg at hc
    refine hne (Finset.ext fun t => ?_)
    simp only [List.mem_toFinset]
    exact ⟨fun h => hsub t h, fun h => hc t h⟩
  · rintro ⟨t, ht, hna⟩ heq
    have : t ∈ al.toFinset := heq ▸ List.mem_toFinset.mpr ht
    exact hna (List.mem_toFinset.mp this)

lemma not_vo_incomplete_false {su : Subject} (al : List Slot)
    (h : ¬ su.stype = "VO") :
    (is_at_least_started al && !(is_complete su al)) = false := by
  unfold is_complete is_at_least_started
  rw [if_neg h]
  cases hd : decide (1 ≤ al.length) <;> simp [hd]

/-- C3 amended: failed is true iff some subject got zero slots placed, and
is_incomplete is true iff some AllBestEffort subject got at least one but
not all of its slots placed; the two flags are set independently, so a
failed schedule can also have is_incomplete set. -/
theorem C3_flags_characterization (subjects : List Subject)
    (arrs : List Allocation) (blank : List String) :
    ((create_schedule subjects arrs blank
        (List.replicate subjects.length [])).1.failed = true ↔
      ∃ si < subjects.length,
        (allocsAfter subjects arrs blank
          (List.replicate subjects.length [])).getD si [] = []) ∧
    ((create_schedule subjects arrs blank
        (List.replicate subjects.length [])).1.is_incomplete = true ↔
      ∃ si < subjects.length,
        (subjects.getD si defSubject).stype = "VO" ∧
        (allocsAfter subjects arrs blank
          (List.replicate subjects.length [])).getD si [] ≠ [] ∧
        ∃ t ∈ (subjects.getD si defSubject).times,
          t ∉ (allocsAfter subjects arrs blank
            (List.replicate subjects.length [])).getD si []) := by
  have hsub := allocsAfter_sub subjects arrs blank
  have hfl : (create_schedule subjects arrs blank
      (List.replicate subjects.length [])).1.failed =
      (classify subjects (allocsAfter subjects arrs blank
        (List.replicate subjects.length []))).1 := rfl
  have hinc : (create_schedule subjects arrs blank
      (List.replicate subjects.length [])).1.is_incomplete =
      (classify subjects (allocsAfter subjects arrs blank
        (List.replicate subjects.length []))).2 := rfl
  set al2 := allocsAfter subjects arrs blank
    (List.replicate subjects.length []) with hal2
  constructor
  · rw [hfl, classify_eq]
    simp only [List.any_eq_true, List.mem_range, Bool.not_eq_true']
    constructor
    · rintro ⟨si, hsi, hne⟩
      refine ⟨si, hsi, ?_⟩
      by_contra hc
      rw [(started_iff _).mpr hc] at hne
      simp at hne
    · rintro ⟨si, hsi, hnil⟩
      refine ⟨si, hsi, ?_⟩
      rw [hnil]
      rfl
  · rw [hinc, classify_eq]
    simp only [List.any_eq_true, List.mem_range, Bool.and_eq_true,
      Bool.not_eq_true']
    constructor
    · rintro ⟨si, hsi, hstart, hcomp⟩
      by_cases hvo : (subjects.getD si defSubject).stype = "VO"
      · exact ⟨si, hsi, hvo, (started_iff _).mp hstart,
          (vo_not_complete_iff (hsub si) hvo).mp hcomp⟩
      · have := not_vo_incomplete_false (al2.getD si []) hvo
        rw [hstart, hcomp] at this
        simp at this
    · rintro ⟨si, hsi, hvo, hne, ht⟩
      exact ⟨si, hsi, (started_iff _).mpr hne,
        (vo_not_complete_iff (hsub si) hvo).mpr ht⟩

lemma findIdx_append_singleton (p : α → Bool) (l : List α) (x : α)
    (hl : ∀ e ∈ l, p e = false) (hx : p x = true) :
    (l ++ [x]).findIdx p = l.length := by
  induction l with
  | nil => simp [List.findIdx_cons, hx]
  | cons a l ih =>
    simp only [List.cons_append, List.findIdx_cons, hl a (List.mem_cons_self a l)]
    rw [ih (fun e he => hl e (List.mem_cons_of_mem a he))]
    simp

/-- C5: the sink rejects failed schedules unchanged; it rejects a schedule
whose grid equals a previously accepted grid and only bumps the duplicate
counter; otherwise it appends the schedule with version set to one plus the
number of previously accepted schedules; and the accepted grids always stay
duplicate free, so no schedule is ever stored twice. -/
theorem C5_sink_dedup_version (sched : Schedule) (st : PercState) :
    (sched.failed = true → sinkStep sched st = st) ∧
    (sched.failed = false → (∃ e ∈ st.saved, e.table = sched.table) →
      sinkStep sched st = { st with duplicates := st.duplicates + 1 }) ∧
    (sched.failed = false → (∀ e ∈ st.saved, e.table ≠ sched.table) →
      (sinkStep sched st).saved =
        st.saved ++ [{ sched with version := st.saved.length + 1 }] ∧
      (sinkStep sched st).duplicates = st.duplicates) ∧
    ((st.saved.map Schedule.table).Nodup →
      ((sinkStep sched st).saved.map Schedule.table).Nodup) := by
  refine ⟨fun hf => by simp [sinkStep, hf], fun hf hdup => ?_,
    fun hf hnew => ?_, fun hnd => ?_⟩
  · have hany : st.saved.any (fun e => decide (e.table = sched.table)) = true := by
      rcases hdup with ⟨e, he, het⟩
      exact List.any_eq_true.mpr ⟨e, he, by simpa using het⟩
    simp [sinkStep, hf, hany]
  · have hany : st.saved.any (fun e => decide (e.table = sched.table)) = false := by
      rw [Bool.eq_false_iff]
      intro hc
      rcases List.any_eq_true.mp hc with ⟨e, he, het⟩
      exact hnew e he (by simpa using het)
    have hidx : (st.saved ++ [sched]).findIdx
        (fun e => decide (e.table = sched.table)) = st.saved.length := by
      refine findIdx_append_singleton _ _ _ ?_ (by simp)
      intro e he
      simpa using hnew e he
    constructor
    · simp only [sinkStep, hf, hany, Bool.false_eq_true, if_false]
      rw [hidx]
    · simp only [sinkStep, hf, hany, Bool.false_eq_true, if_false]
  · cases hf : sched.failed
    · cases hany : st.saved.any (fun e => decide (e.table = sched.table))
      · have hnotin : sched.table ∉ st.saved.map Schedule.table := by
          intro hc
          rcases List.mem_map.mp hc with ⟨e, he, het⟩
          have : st.saved.any (fun e => decide (e.table = sched.table)) = true :=
            List.any_eq_true.mpr ⟨e, he, by simpa using het⟩
          rw [hany] at this
          simp at this
        simp only [sinkStep, hf, hany, Bool.false_eq_true, if_false,
          List.map_append, List.map_cons, List.map_nil]
        refine List.Nodup.append hnd (by simp) ?_
        intro y hy hy2
        have : y = sched.table := by simpa using hy2
        rw [this] at hy
        exact hnotin hy
      · simpa [sinkStep, hf, hany] using hnd
    · simpa [sinkStep, hf] using hnd

/-- Witness for C5: the four branches at concrete schedules and states. -/
theorem C5_sink_dedup_version_witness :
    ((⟨["A"], false, true, 0⟩ : Schedule).failed = true →
      sinkStep ⟨["A"], false, true, 0⟩ ⟨[], [], [], [], 0⟩ =
        ⟨[], [], [], [], 0⟩) ∧
    (sinkStep ⟨["A"], false, true, 0⟩ ⟨[], [], [], [], 0⟩ =
      ⟨[], [], [], [], 0⟩) ∧
    (sinkStep ⟨["B"], false, false, 0⟩
        ⟨[], [], [], [⟨["B"], false, false, 1⟩], 0⟩ =
      { arrs := [], allocs := [], visited := [],
        saved := [⟨["B"], false, false, 1⟩], duplicates := 1 }) ∧
    ((sinkStep ⟨["C"], false, false, 0⟩ ⟨[], [], [], [], 0⟩).saved =
      [⟨["C"], false, false, 1⟩]) := by
  refine ⟨(C5_sink_dedup_version _ _).1, (C5_sink_dedup_version _ _).1 rfl, ?_, ?_⟩
  · exact (C5_sink_dedup_version _ _).2.1 rfl ⟨_, List.mem_singleton_self _, rfl⟩
  · have h := ((C5_sink_dedup_version (⟨["C"], false, false, 0⟩ : Schedule)
      ⟨[], [], [], [], 0⟩).2.2.1 rfl (by simp)).1
    simpa using h

lemma foldl_set_getD_not_mem (l : List Nat) (name : String) :
    ∀ (tb : List String) (i : Nat), i ∉ l →
    (l.foldl (fun tb j => tb.set j name) tb).getD i "" = tb.getD i "" := by
  induction l with
  | nil => intro tb i _; rfl
  | cons j rest ih =>
    intro tb i hi
    simp only [List.foldl_cons]
    rw [ih _ i (fun hc => hi (List.mem_cons_of_mem j hc))]
    exact getD_set_ne tb j i name ""
      (fun hc => hi (hc ▸ List.mem_cons_self j rest))

lemma fill_getD_of_ne_empty {tb : List String} {su : Subject} {t : Slot}
    (hfree : is_free tb t = true) {i : Nat} (hne : tb.getD i "" ≠ "") :
    (fill tb su t).getD i "" = tb.getD i "" := by
  unfold is_free at hfree
  unfold fill
  refine foldl_set_getD_not_mem _ _ tb i ?_
  intro hmem
  have hcell := List.all_eq_true.mp hfree i hmem
  simp only [beq_iff_eq] at hcell
  exact hne hcell

/-- Pointwise monotonicity of grids: every nonempty cell of the first grid
keeps exactly its value in the second grid. -/
def tableLe (t t2 : List String) : Prop :=
  ∀ i, t.getD i "" ≠ "" → t2.getD i "" = t.getD i ""

lemma tableLe_refl (t : List String) : tableLe t t := fun _ _ => rfl

lemma tableLe_trans {a b c : List String} (h1 : tableLe a b)
    (h2 : tableLe b c) : tableLe a c := by
  intro i hi
  have hb := h1 i hi
  rw [h2 i (by rw [hb]; exact hi), hb]

lemma fill_tableLe {tb : List String} {su : Subject} {t : Slot}
    (hfree : is_free tb t = true) : tableLe tb (fill tb su t) :=
  fun _ hi => fill_getD_of_ne_empty hfree hi

lemma phase1Subject_le_aux (su : Subject) (mask : List Bool) :
    ∀ (l : List Nat) (st : List String × List Slot),
    tableLe st.1 ((l.foldl
      (fun st i =>
        if mask.getD i false then
          let t := su.times.getD i (0, 0)
          if is_free st.1 t then (fill st.1 su t, mark_allocated st.2 t)
          else st
        else st) st).1) := by
  intro l
  induction l with
  | nil => intro st; exact tableLe_refl _
  | cons i rest ih =>
    intro st
    simp only [List.foldl_cons]
    refine tableLe_trans ?_ (ih _)
    dsimp only
    split
    · split
      · exact fill_tableLe (by assumption)
      · exact tableLe_refl _
    · exact tableLe_refl _

lemma phase1Subject_le (su : Subject) (mask : List Bool)
    (st : List String × List Slot) :
    tableLe st.1 (phase1Subject su mask st).1 := by
  unfold phase1Subject
  exact phase1Subject_le_aux su mask (List.range su.times.length) st

lemma phase2Subject_le_aux (su : Subject) :
    ∀ (L : List Slot) (st : List String × List Slot),
    tableLe st.1 ((L.foldl
      (fun st t =>
        if t ∈ st.2 then st
        else if is_free st.1 t then (fill st.1 su t, mark_allocated st.2 t)
        else st) st).1) := by
  intro L
  induction L with
  | nil => intro st; exact tableLe_refl _
  | cons t rest ih =>
    intro st
    simp only [List.foldl_cons]
    refine tableLe_trans ?_ (ih _)
    dsimp only
    split
    · exact tableLe_refl _
    · split
      · exact fill_tableLe (by assumption)
      · exact tableLe_refl _

lemma phase2Subject_le (su : Subject) (st : List String × List Slot) :
    tableLe st.1 (phase2Subject su st).1 := by
  unfold phase2Subject
  exact phase2Subject_le_aux su su.times st

lemma phase1_le_aux (subjects : List Subject) (arrs : List Allocation) :
    ∀ (l : List Nat) (st : List String × List (List Slot)),
    tableLe st.1 ((l.foldl
      (fun st si =>
        let su := subjects.getD si defSubject
        let mask := (arrs.getD si (Allocation.init defSubject)).get_array
        let r := phase1Subject su mask (st.1, st.2.getD si [])
        (r.1, st.2.set si r.2)) st).1) := by
  intro l
  induction l with
  | nil => intro st; exact tableLe_refl _
  | cons si rest ih =>
    intro st
    simp only [List.foldl_cons]
    refine tableLe_trans ?_ (ih _)
    exact phase1Subject_le (subjects.getD si defSubject)
      ((arrs.getD si (Allocation.init defSubject)).get_array)
      (st.1, st.2.getD si [])

lemma phase1_le (subjects : List Subject) (arrs : List Allocation)
    (tb : List String) (allocs : List (List Slot)) :
    tableLe tb (phase1 subjects arrs tb allocs).1 := by
  unfold phase1
  exact phase1_le_aux subjects arrs (List.range subjects.length) (tb, allocs)

lemma phase2_le_aux (subjects : List Subject) :
    ∀ (l : List Nat) (st : List String × List (List Slot)),
    tableLe st.1 ((l.foldl
      (fun st si =>
        let su := subjects.getD si defSubject
        if su.stype = "VO" then
          let r := phase2Subject su (st.1, st.2.getD si [])
          (r.1, st.2.set si r.2)
        else st) st).1) := by
  intro l
  induction l with
  | nil => intro st; exact tableLe_refl _
  | cons si rest ih =>
    intro st
    simp only [List.foldl_cons]
    refine tableLe_trans ?_ (ih _)
    dsimp only
    split
    · exact phase2Subject_le (subjects.getD si defSubject)
        (st.1, st.2.getD si [])
    · exact tableLe_refl _

lemma phase2_le (subjects : List Subject)
    (tb : List String) (allocs : List (List Slot)) :
    tableLe tb (phase2 subjects tb allocs).1 := by
  unfold phase2
  exact phase2_le_aux subjects (List.range subjects.length) (tb, allocs)

/-- C6: a grid cell that holds a subject name is never overwritten or
cleared for the rest of the build: the grid after phase 1 is preserved
cell-for-cell on its nonempty cells by the final grid, so a slot allocated
in phase 1 is never reassigned or removed in phase 2, and similarly every
nonempty cell of the starting grid survives into the final grid. -/
theorem C6_cells_monotone (subjects : List Subject) (arrs : List Allocation)
    (blank : List String) (allocs : List (List Slot)) :
    tableLe (phase1 subjects arrs blank allocs).1
      (create_schedule subjects arrs blank allocs).1.table ∧
    tableLe blank (create_schedule subjects arrs blank allocs).1.table := by
  have htab : (create_schedule subjects arrs blank allocs).1.table =
      (phase2 subjects (phase1 subjects arrs blank allocs).1
        (phase1 subjects arrs blank allocs).2).1 := rfl
  rw [htab]
  exact ⟨phase2_le _ _ _,
    tableLe_trans (phase1_le subjects arrs blank allocs) (phase2_le _ _ _)⟩

/-- Witness for C6: a preoccupied cell of the starting grid survives a
concrete build unchanged. -/
theorem C6_cells_monotone_witness :
    (["X"] : List String).getD 0 "" ≠ "" ∧
    (create_schedule [dA] [Allocation.init dA] ["X"] [[]]).1.table.getD 0 "" =
      (["X"] : List String).getD 0 "" :=
  ⟨by decide,
    (C6_cells_monotone [dA] [Allocation.init dA] ["X"] [[]]).2 0 (by decide)⟩

lemma foldl_filter_guard {σ : Type} (p : α → Bool) (f : σ → α → σ) :
    ∀ (l : List α) (st : σ),
    (l.filter p).foldl f st =
      l.foldl (fun st x => if p x then f st x else st) st := by
  intro l
  induction l with
  | nil => intro st; rfl
  | cons a l ih =>
    intro st
    cases h : p a <;> simp [List.filter_cons, h, ih]

lemma is_free_iff (tb : List String) (t : Slot) :
    is_free tb t = true ↔ ∀ i < t.2, t.1 ≤ i → tb.getD i "" = "" := by
  unfold is_free
  rw [List.all_eq_true]
  constructor
  · intro h i hi2 hi1
    have hm : i ∈ List.range' t.1 (t.2 - t.1) := by
      rw [List.mem_range'_1]
      omega
    simpa using h i hm
  · intro h i hi
    rw [List.mem_range'_1] at hi
    have := h i (by omega) (by omega)
    simpa using this

lemma attemptSpec_eq (su : Subject) (st : List String × List Slot) (t : Slot) :
    attemptSpec su st t =
      if is_free st.1 t then (fill st.1 su t, mark_allocated st.2 t)
      else st := by
  unfold attemptSpec
  by_cases h : is_free st.1 t = true
  · rw [if_pos ((is_free_iff _ _).mp h), if_pos h]
  · rw [if_neg (fun hc => h ((is_free_iff _ _).mpr hc)), if_neg h]

lemma phase1Subject_spec_eq (su : Subject) (mask : List Bool)
    (st : List String × List Slot) :
    phase1SubjectSpec su mask st = phase1Subject su mask st := by
  unfold phase1SubjectSpec phase1Subject
  rw [foldl_filter_guard]
  have hbody : (fun (st : List String × List Slot) i =>
      if mask.getD i false then attemptSpec su st (su.times.getD i (0, 0))
      else st) =
      (fun (st : List String × List Slot) i =>
        if mask.getD i false then
          let t := su.times.getD i (0, 0)
          if is_free st.1 t then (fill st.1 su t, mark_allocated st.2 t)
          else st
        else st) := by
    funext st2 i
    rw [attemptSpec_eq]
  rw [hbody]

lemma phase2Subject_spec_eq (su : Subject) (st : List String × List Slot) :
    phase2SubjectSpec su st = phase2Subject su st := by
  unfold phase2SubjectSpec phase2Subject
  have hbody : (fun (st : List String × List Slot) t =>
      if t ∉ st.2 ∧ ∀ i < t.2, t.1 ≤ i → st.1.getD i "" = "" then
        (fill st.1 su t, mark_allocated st.2 t)
      else st) =
      (fun (st : List String × List Slot) t =>
        if t ∈ st.2 then st
        else if is_free st.1 t then (fill st.1 su t, mark_allocated st.2 t)
        else st) := by
    funext st2 t
    by_cases hmem : t ∈ st2.2
    · rw [if_pos hmem, if_neg (fun hc => hc.1 hmem)]
    · rw [if_neg hmem]
      by_cases hfree : is_free st2.1 t = true
      · rw [if_pos hfree, if_pos ⟨hmem, (is_free_iff _ _).mp hfree⟩]
      · rw [if_neg hfree,
          if_neg (fun hc => hfree ((is_free_iff _ _).mpr hc.2))]
  rw [hbody]

lemma phase1_spec_eq (subjects : List Subject) (arrs : List Allocation)
    (tb : List String) (allocs : List (List Slot)) :
    phase1Spec subjects arrs tb allocs = phase1 subjects arrs tb allocs := by
  unfold phase1Spec phase1
  have hbody : (fun (st : List String × List (List Slot)) si =>
      let su := subjects.getD si defSubject
      let mask := (arrs.getD si (Allocation.init defSubject)).get_array
      let r := phase1SubjectSpec su mask (st.1, st.2.getD si [])
      (r.1, st.2.set si r.2)) =
      (fun (st : List String × List (List Slot)) si =>
        let su := subjects.getD si defSubject
        let mask := (arrs.getD si (Allocation.init defSubject)).get_array
        let r := phase1Subject su mask (st.1, st.2.getD si [])
        (r.1, st.2.set si r.2)) := by
    funext st si
    simp only [phase1Subject_spec_eq]
  rw [hbody]

lemma phase2_spec_eq (subjects : List Subject)
    (tb : List String) (allocs : List (List Slot)) :
    phase2Spec subjects tb allocs = phase2 subjects tb allocs := by
  unfold phase2Spec phase2
  rw [foldl_filter_guard]
  have hbody : (fun (st : List String × List (List Slot)) si =>
      if decide ((subjects.getD si defSubject).stype = "VO") = true then
        let su := subjects.getD si defSubject
        let r := phase2SubjectSpec su (st.1, st.2.getD si [])
        (r.1, st.2.set si r.2)
      else st) =
      (fun (st : List String × List (List Slot)) si =>
        let su := subjects.getD si defSubject
        if su.stype = "VO" then
          let r := phase2Subject su (st.1, st.2.getD si [])
          (r.1, st.2.set si r.2)
        else st) := by
    funext st si
    by_cases hvo : (subjects.getD si defSubject).stype = "VO"
    · rw [if_pos (by simpa using hvo), if_pos hvo]
      simp only [phase2Subject_spec_eq]
    · rw [if_neg (by simpa using hvo), if_neg hvo]
  rw [hbody]

/-- C2: the builder is exactly the two-phase procedure the spec describes:
phase 1 attempts, for each subject in fixed order, each slot in definition
order whose bit is set, writing the subject name only when every spanned
cell is empty and skipping silently on conflict; phase 2 considers only
AllBestEffort (VO) subjects and allocates every not-yet-allocated slot,
regardless of its bit, whose cells are all still empty; ExclusiveOne (UE)
subjects are never revisited in phase 2. -/
theorem C2_two_phase_builder (subjects : List Subject)
    (arrs : List Allocation) (blank : List String)
    (allocs : List (List Slot)) :
    create_schedule subjects arrs blank allocs =
      create_scheduleSpec subjects arrs blank allocs := by
  unfold create_schedule create_scheduleSpec
  simp only [phase1_spec_eq, phase2_spec_eq]

/-- C1: the search driver does not visit every signature. On the concrete
input with per-subject choice counts 4, 3 and 3 the completed walk builds
only 35 of the 4 * 3 * 3 = 36 signatures: the signature picking choice 0
for the first subject, choice 2 for the second and choice 0 for the third
is never visited, because the advance and reverse steps are asymmetric at
the end of a range (advance saturates without moving while reverse always
moves), which shifts the walk off the intended lattice point. -/
theorem C1_percolate_misses_signature :
    cResult.map (fun s => s.visited.length) = some 35 ∧
    cResult.map (fun s => decide
      (([[true, false, false, false], [false, false, true],
         [true, false, false]] : List (List Bool)) ∈ s.visited)) =
      some false ∧
    (35 : Nat) ≠ 4 * 3 * 3 := by
  refine ⟨?_, ?_, by decide⟩ <;> rfl

lemma advance_array (a : Allocation) : a.advance.array = a.array := by
  unfold Allocation.advance
  split <;> rfl

lemma reverse_array (a : Allocation) : a.reverse.array = a.array := by
  unfold Allocation.reverse
  split <;> rfl

lemma advance_pres {a : Allocation}
    (h : a.array ≠ [] ∧ a.index < a.array.length) :
    a.advance.array ≠ [] ∧ a.advance.index < a.advance.array.length := by
  rw [advance_array]
  refine ⟨h.1, ?_⟩
  unfold Allocation.advance
  split
  · dsimp only
    omega
  · exact h.2

lemma reverse_pres {a : Allocation}
    (h : a.array ≠ [] ∧ a.index < a.array.length) :
    a.reverse.array ≠ [] ∧ a.reverse.index < a.reverse.array.length := by
  rw [reverse_array]
  refine ⟨h.1, ?_⟩
  unfold Allocation.reverse
  split
  · dsimp only
    have := h.2
    omega
  · exact h.2

lemma mem_modifyIdx (f : α → α) :
    ∀ (l : List α) (j : Nat) (x : α), x ∈ modifyIdx f j l →
      x ∈ l ∨ ∃ b ∈ l, x = f b := by
  intro l
  induction l with
  | nil => intro j x hx; simp [modifyIdx] at hx
  | cons a l ih =>
    intro j x hx
    cases j with
    | zero =>
      simp only [modifyIdx, List.mem_cons] at hx
      rcases hx with rfl | hx
      · exact Or.inr ⟨a, List.mem_cons_self a l, rfl⟩
      · exact Or.inl (List.mem_cons_of_mem a hx)
    | succ j2 =>
      simp only [modifyIdx, List.mem_cons] at hx
      rcases hx with rfl | hx
      · exact Or.inl (List.mem_cons_self x l)
      · rcases ih j2 x hx with h1 | ⟨b, hb, rfl⟩
        · exact Or.inl (List.mem_cons_of_mem a h1)
        · exact Or.inr ⟨b, List.mem_cons_of_mem a hb, rfl⟩

lemma modifyIdx_map_eq (f : α → α) (g : α → β)
    (hfg : ∀ a, g (f a) = g a) :
    ∀ (l : List α) (j : Nat), (modifyIdx f j l).map g = l.map g := by
  intro l
  induction l with
  | nil => intro j; cases j <;> rfl
  | cons a l ih =>
    intro j
    cases j with
    | zero => simp [modifyIdx, hfg]
    | succ j2 => simp [modifyIdx, ih j2]

lemma clearFirstFlag_inv :
    ∀ (arrs arrs2 : List Allocation), clearFirstFlag arrs = some arrs2 →
    (∀ a ∈ arrs, a.array ≠ [] ∧ a.index < a.array.length) →
    ∀ a ∈ arrs2, a.array ≠ [] ∧ a.index < a.array.length := by
  intro arrs
  induction arrs with
  | nil => intro arrs2 h; simp [clearFirstFlag] at h
  | cons a rest ih =>
    intro arrs2 h hinv
    simp only [clearFirstFlag] at h
    split at h
    · cases h
      intro b hb
      rcases List.mem_cons.mp hb with rfl | hb2
      · exact hinv a (List.mem_cons_self a rest)
      · exact hinv b (List.mem_cons_of_mem a hb2)
    · rcases Option.map_eq_some'.mp h with ⟨r2, hr2, hb⟩
      subst hb
      intro b hb2
      rcases List.mem_cons.mp hb2 with rfl | hb3
      · exact hinv b (List.mem_cons_self b rest)
      · exact ih r2 hr2 (fun c hc => hinv c (List.mem_cons_of_mem a hc)) b hb3

lemma clearFirstFlag_maparr :
    ∀ (arrs arrs2 : List Allocation), clearFirstFlag arrs = some arrs2 →
    arrs2.map Allocation.array = arrs.map Allocation.array := by
  intro arrs
  induction arrs with
  | nil => intro arrs2 h; simp [clearFirstFlag] at h
  | cons a rest ih =>
    intro arrs2 h
    simp only [clearFirstFlag] at h
    split at h
    · cases h
      rfl
    · rcases Option.map_eq_some'.mp h with ⟨r2, hr2, hb⟩
      subst hb
      simp only [List.map_cons]
      rw [ih r2 hr2]

lemma sigOf_mem_listProd (arrs : List Allocation)
    (hb : ∀ a ∈ arrs, a.index < a.array.length) :
    sigOf arrs ∈ listProd (arrs.map Allocation.array) := by
  induction arrs with
  | nil => simp [sigOf, listProd]
  | cons a rest ih =>
    simp only [sigOf, List.map_cons, listProd]
    refine List.mem_flatMap.mpr ⟨a.get_array, ?_, ?_⟩
    · have hlt := hb a (List.mem_cons_self a rest)
      rw [Allocation.get_array, List.getD_eq_getElem _ _ hlt]
      exact List.getElem_mem hlt
    · refine List.mem_map.mpr ⟨rest.map Allocation.get_array, ?_, rfl⟩
      have := ih (fun x hx => hb x (List.mem_cons_of_mem a hx))
      simpa [sigOf] using this

lemma countP_mono_sub (l : List α) (p q : α → Bool)
    (h : ∀ x ∈ l, q x = true → p x = true) :
    l.countP q ≤ l.countP p := by
  induction l with
  | nil => simp
  | cons a l ih =>
    rw [List.countP_cons, List.countP_cons]
    have hh := ih (fun x hx => h x (List.mem_cons_of_mem a hx))
    have hstep : (if q a = true then 1 else 0) ≤
        (if p a = true then 1 else 0) := by
      by_cases hq : q a = true
      · rw [if_pos hq, if_pos (h a (List.mem_cons_self a l) hq)]
      · rw [if_neg hq]
        exact Nat.zero_le _
    omega

lemma countP_lt_of_mem (p q : α → Bool) (x : α)
    (hpx : p x = true) (hqx : q x = false) :
    ∀ l : List α, x ∈ l → (∀ y ∈ l, q y = true → p y = true) →
    l.countP q < l.countP p := by
  intro l
  induction l with
  | nil => intro hx; simp at hx
  | cons a l ih =>
    intro hx h
    rw [List.countP_cons, List.countP_cons]
    rcases List.mem_cons.mp hx with rfl | hxl
    · rw [if_pos hpx, if_neg (by rw [hqx]; exact Bool.false_ne_true)]
      have hle := countP_mono_sub l p q
        (fun y hy => h y (List.mem_cons_of_mem x hy))
      omega
    · have hlt := ih hxl (fun y hy => h y (List.mem_cons_of_mem a hy))
      have hstep : (if q a = true then 1 else 0) ≤
          (if p a = true then 1 else 0) := by
        by_cases hq : q a = true
        · rw [if_pos hq, if_pos (h a (List.mem_cons_self a l) hq)]
        · rw [if_neg hq]
          exact Nat.zero_le _
      omega

lemma unvisitedOf_mono (arrs arrs2 : List Allocation)
    (visited visited2 : List (List (List Bool)))
    (harr : arrs2.map Allocation.array = arrs.map Allocation.array)
    (hv : ∀ x ∈ visited, x ∈ visited2) :
    unvisitedOf arrs2 visited2 ≤ unvisitedOf arrs visited := by
  unfold unvisitedOf
  rw [harr]
  refine countP_mono_sub _ _ _ ?_
  intro sg _ hq
  simp only [decide_eq_true_eq] at hq ⊢
  exact fun hc => hq (hv sg hc)

lemma unvisitedOf_insert_lt (arrs : List Allocation)
    (visited : List (List (List Bool)))
    (hb : ∀ a ∈ arrs, a.index < a.array.length)
    (hnv : sigOf arrs ∉ visited) :
    unvisitedOf arrs (sigOf arrs :: visited) < unvisitedOf arrs visited := by
  unfold unvisitedOf
  refine countP_lt_of_mem _ _ (sigOf arrs) (by simp [hnv]) (by simp) _
    (sigOf_mem_listProd arrs hb) ?_
  intro y _ hq
  simp only [decide_eq_true_eq] at hq ⊢
  exact fun hc => hq (List.mem_cons_of_mem _ hc)

lemma sinkStep_arrs (sched : Schedule) (st : PercState) :
    (sinkStep sched st).arrs = st.arrs := by
  unfold sinkStep
  split
  · rfl
  · split <;> rfl

lemma sinkStep_visited (sched : Schedule) (st : PercState) :
    (sinkStep sched st).visited = st.visited := by
  unfold sinkStep
  split
  · rfl
  · split <;> rfl

lemma axisSteps_total (subjects : List Subject) (blank : List String)
    (f m : Nat)
    (hstep : ∀ st : PercState, StInv st → unvisited st ≤ m →
      ∃ st2, percolate subjects blank f st = some st2 ∧ StInv st2 ∧
        st2.arrs.map Allocation.array = st.arrs.map Allocation.array ∧
        ∀ x ∈ st.visited, x ∈ st2.visited) :
    ∀ (js : List Nat) (st : PercState), StInv st → unvisited st ≤ m →
    ∃ st2, axisSteps (percolate subjects blank f) js st = some st2 ∧
      StInv st2 ∧
      st2.arrs.map Allocation.array = st.arrs.map Allocation.array ∧
      ∀ x ∈ st.visited, x ∈ st2.visited := by
  intro js
  induction js with
  | nil =>
    intro st hinv hm
    exact ⟨st, rfl, hinv, rfl, fun x hx => hx⟩
  | cons j rest ih =>
    intro st hinv hm
    have hinvA : StInv { st with arrs := modifyIdx Allocation.advance j st.arrs } := by
      intro a ha
      rcases mem_modifyIdx _ _ _ _ ha with h1 | ⟨b, hb, rfl⟩
      · exact hinv a h1
      · exact advance_pres (hinv b hb)
    have harrA : (modifyIdx Allocation.advance j st.arrs).map Allocation.array =
        st.arrs.map Allocation.array :=
      modifyIdx_map_eq _ _ advance_array _ _
    have hmA : unvisited { st with arrs := modifyIdx Allocation.advance j st.arrs } ≤ m :=
      le_trans (unvisitedOf_mono st.arrs _ st.visited _ harrA (fun x hx => hx)) hm
    obtain ⟨st2, hrun, hinv2, harr2, hvis2⟩ := hstep _ hinvA hmA
    have hinvB : StInv { st2 with arrs := modifyIdx Allocation.reverse j st2.arrs } := by
      intro a ha
      rcases mem_modifyIdx _ _ _ _ ha with h1 | ⟨b, hb, rfl⟩
      · exact hinv2 a h1
      · exact reverse_pres (hinv2 b hb)
    have harrB : (modifyIdx Allocation.reverse j st2.arrs).map Allocation.array =
        st2.arrs.map Allocation.array :=
      modifyIdx_map_eq _ _ reverse_array _ _
    have hm2 : unvisited st2 ≤ m :=
      le_trans (unvisitedOf_mono _ st2.arrs _ st2.visited harr2 hvis2) hmA
    have hmB : unvisited { st2 with arrs := modifyIdx Allocation.reverse j st2.arrs } ≤ m :=
      le_trans (unvisitedOf_mono st2.arrs _ st2.visited _ harrB (fun x hx => hx)) hm2
    obtain ⟨st3, hrun3, hinv3, harr3, hvis3⟩ := ih _ hinvB hmB
    refine ⟨st3, ?_, hinv3, ?_, ?_⟩
    · simp only [axisSteps]
      rw [hrun]
      exact hrun3
    · rw [harr3, harrB, harr2, harrA]
    · intro x hx
      exact hvis3 x (hvis2 x hx)

lemma percolate_total (subjects : List Subject) (blank : List String) :
    ∀ (m : Nat) (st : PercState), StInv st → unvisited st ≤ m →
    ∃ st2, percolate subjects blank (m + 1) st = some st2 ∧ StInv st2 ∧
      st2.arrs.map Allocation.array = st.arrs.map Allocation.array ∧
      ∀ x ∈ st.visited, x ∈ st2.visited := by
  intro m
  induction m with
  | zero =>
    intro st hinv hm
    cases hclear : clearFirstFlag st.arrs with
    | some arrs2 =>
      refine ⟨{ st with arrs := arrs2 }, ?_, ?_, ?_, fun x hx => hx⟩
      · simp only [percolate, hclear]
      · exact clearFirstFlag_inv _ _ hclear hinv
      · exact clearFirstFlag_maparr _ _ hclear
    | none =>
      by_cases hmem : sigOf st.arrs ∈ st.visited
      · refine ⟨st, ?_, hinv, rfl, fun x hx => hx⟩
        simp only [percolate, hclear, if_pos hmem]
      · exfalso
        have h1 : 0 < unvisited st := by
          unfold unvisited unvisitedOf
          rw [List.countP_pos]
          exact ⟨sigOf st.arrs,
            sigOf_mem_listProd st.arrs (fun a ha => (hinv a ha).2),
            by simp [hmem]⟩
        omega
  | succ m ih =>
    intro st hinv hm
    cases hclear : clearFirstFlag st.arrs with
    | some arrs2 =>
      refine ⟨{ st with arrs := arrs2 }, ?_, ?_, ?_, fun x hx => hx⟩
      · simp only [percolate, hclear]
      · exact clearFirstFlag_inv _ _ hclear hinv
      · exact clearFirstFlag_maparr _ _ hclear
    | none =>
      by_cases hmem : sigOf st.arrs ∈ st.visited
      · refine ⟨st, ?_, hinv, rfl, fun x hx => hx⟩
        simp only [percolate, hclear, if_pos hmem]
      · have hinv2 : StInv (sinkStep
            (create_schedule subjects st.arrs blank
              ({ st with visited := sigOf st.arrs :: st.visited } : PercState).allocs).1
            { { st with visited := sigOf st.arrs :: st.visited } with
              allocs := (create_schedule subjects st.arrs blank
                ({ st with visited := sigOf st.arrs :: st.visited } : PercState).allocs).2 }) := by
          intro a ha
          rw [sinkStep_arrs] at ha
          exact hinv a ha
        have hm2 : unvisited (sinkStep
            (create_schedule subjects st.arrs blank
              ({ st with visited := sigOf st.arrs :: st.visited } : PercState).allocs).1
            { { st with visited := sigOf st.arrs :: st.visited } with
              allocs := (create_schedule subjects st.arrs blank
                ({ st with visited := sigOf st.arrs :: st.visited } : PercState).allocs).2 }) ≤ m := by
          have hlt : unvisitedOf st.arrs (sigOf st.arrs :: st.visited) <
              unvisitedOf st.arrs st.visited :=
            unvisitedOf_insert_lt st.arrs st.visited
              (fun a ha => (hinv a ha).2) hmem
          have heq : unvisited (sinkStep
              (create_schedule subjects st.arrs blank
                ({ st with visited := sigOf st.arrs :: st.visited } : PercState).allocs).1
              { { st with visited := sigOf st.arrs :: st.visited } with
                allocs := (create_schedule subjects st.arrs blank
                  ({ st with visited := sigOf st.arrs :: st.visited } : PercState).allocs).2 }) =
              unvisitedOf st.arrs (sigOf st.arrs :: st.visited) := by
            unfold unvisited
            rw [sinkStep_arrs, sinkStep_visited]
          have hmm : unvisited st ≤ m + 1 := hm
          unfold unvisited at hmm
          omega
        obtain ⟨st3, hrun, hinv3, harr3, hvis3⟩ :=
          axisSteps_total subjects blank (m + 1) m ih _ _ hinv2 hm2
        refine ⟨st3, ?_, hinv3, ?_, ?_⟩
        · simp only [percolate, hclear, if_neg hmem]
          exact hrun
        · rw [harr3, sinkStep_arrs]
        · intro x hx
          have hx2 := List.mem_cons_of_mem (sigOf st.arrs) hx
          refine hvis3 x ?_
          rw [sinkStep_visited]
          exact hx2

/-- C8: for every subject list in which each subject has at least one slot,
the recursive walk terminates: there is a fuel bound under which percolate
returns from the initial state, because every processing call removes one
signature from the finite unvisited set and every other call returns
immediately. -/
theorem C8_percolate_terminates (subjects : List Subject)
    (blank : List String) (hne : subjects ≠ [])
    (hslots : ∀ su ∈ subjects, su.times ≠ []) :
    ∃ fuel st2,
      percolate subjects blank fuel (initState subjects) = some st2 := by
  have hinv : StInv (initState subjects) := by
    intro a ha
    simp only [initState] at ha
    rcases List.mem_map.mp ha with ⟨su, hsu, rfl⟩
    refine ⟨init_array_ne_nil su (hslots su hsu), ?_⟩
    have := init_array_ne_nil su (hslots su hsu)
    simp only [Allocation.init] at this ⊢
    exact List.length_pos.mpr this
  obtain ⟨st2, hrun, _⟩ := percolate_total subjects blank
    (unvisited (initState subjects)) (initState subjects) hinv (le_refl _)
  exact ⟨unvisited (initState subjects) + 1, st2, hrun⟩

/-- Witness for C8 at a concrete one-subject input. -/
theorem C8_percolate_terminates_witness :
    ([dA] : List Subject) ≠ [] ∧ (∀ su ∈ ([dA] : List Subject), su.times ≠ []) ∧
    ∃ fuel st2,
      percolate [dA] (List.replicate 3 "") fuel (initState [dA]) = some st2 :=
  ⟨by decide, by decide,
    C8_percolate_terminates [dA] (List.replicate 3 "") (by decide) (by decide)⟩

end Scheduling
